import Mathlib

/-!
Verification of the SciOlyID media-selection and upload-verification
subsystems, as a shallow embedding of `sciolyid/core.py` and
`sciolyid/web/tasks/git_tasks.py`.
-/

namespace SciolyId

/-! ### Flag tables (`git_tasks.py`, `GIT_PUSHINFO_FLAGS` / `GIT_PUSH_OPCODES`) -/

def GIT_PUSHINFO_FLAGS : List String :=
  ["ERROR", "UP_TO_DATE", "FAST_FORWARD", "FORCED_UPDATE", "DELETED",
   "REMOTE_FAILURE", "REMOTE_REJECTED", "REJECTED", "NO_MATCH", "NEW_HEAD",
   "NEW_TAG"]

def GIT_PUSH_OPCODES : List String :=
  ["CHECKING_OUT", "FINDING_SOURCES", "RESOLVING", "RECEIVING", "WRITING",
   "COMPRESSING", "COUNTING", "END", "BEGIN"]

/-- Binary digits of `w`, most significant first; `[]` for `0`.  The first
argument is structural recursion fuel; `fuel = w` always suffices, since the
halved argument never exceeds the spent fuel. -/
def bitsAux : Nat → Nat → List Nat
  | _, 0 => []
  | 0, _ + 1 => []
  | fuel + 1, w + 1 => bitsAux fuel ((w + 1) / 2) ++ [(w + 1) % 2]

/-- Python `f"{w:b}"`: binary rendering of `w`, `"0"` for zero (Python never
prints leading zeros for positive numbers). -/
def pyBin (w : Nat) : List Nat := if w = 0 then [0] else bitsAux w w

/-- Python's `0>width` format padding: left-pad with zero digits up to
`width`; longer inputs are left unchanged. -/
def pyPadZero (width : Nat) (l : List Nat) : List Nat :=
  List.replicate (width - l.length) 0 ++ l

/-- The decoding loop shared by `_push_helper` and `wrapped_progress`:
`for i, flag in enumerate(digits): if int(flag): out.append(table[i])`.
`none` models the `IndexError` raised when a set digit's position falls
outside the table. -/
def decodeTableFrom (table : List String) : Nat → List Nat → Option (List String)
  | _, [] => some []
  | i, b :: rest =>
    if b ≠ 0 then
      match table.get? i with
      | none => none
      | some f => (decodeTableFrom table (i + 1) rest).map (fun l => f :: l)
    else decodeTableFrom table (i + 1) rest

/-- `_push_helper`'s flag decoding: render `push_result[0].flags` as a
binary string left-padded to 11 digits and collect the table entries at
the set positions. -/
def push_flags_decode (w : Nat) : Option (List String) :=
  decodeTableFrom GIT_PUSHINFO_FLAGS 0 (pyPadZero 11 (pyBin w))

/-- `wrapped_progress`'s opcode decoding: the same scheme over the 9-entry
opcode table with width 9. -/
def opcode_decode (w : Nat) : Option (List String) :=
  decodeTableFrom GIT_PUSH_OPCODES 0 (pyPadZero 9 (pyBin w))

/-- Specification-side description of the decode: the flag names whose
bits are set in `w`, read most-significant-bit first against the 11-entry
table. -/
def specSetFlags (w : Nat) : List String :=
  (List.range 11).filterMap (fun i =>
    if Nat.testBit w (10 - i) then GIT_PUSHINFO_FLAGS.get? i else none)

/-- Specification-side description of the opcode decode: the opcode names
whose bits are set in `w`, read most-significant-bit first against the
9-entry table. -/
def specSetOpcodes (w : Nat) : List String :=
  (List.range 9).filterMap (fun i =>
    if Nat.testBit w (8 - i) then GIT_PUSH_OPCODES.get? i else none)

/-- The exact fixed-width binary rendering: `k` digits, most significant
first.  Used only on the specification side, to reason about the padded
rendering the code produces. -/
def bitsFixed : Nat → Nat → List Nat
  | 0, _ => []
  | k + 1, w => bitsFixed k (w / 2) ++ [w % 2]

/-! ### The stateful selector (`core.py`, `get_image`) -/

/-- `valid_image_extensions` from `core.py`. -/
def valid_image_extensions : List String := ["jpg", "png", "jpeg", "gif"]

/-- `image_link.split(".")[-1]`: the text after the last dot, which is the
whole name when there is no dot, and empty when the name ends in a dot. -/
def extensionOf (path : String) : String :=
  String.mk ((path.data.reverse.takeWhile (fun c => c ≠ '.')).reverse)

/-- `extension.lower()`, character by character. -/
def pyLower (s : String) : String := String.mk (s.data.map Char.toLower)

/-- A candidate file: its path and its on-disk byte size (`os.stat`). -/
structure ImageFile where
  name : String
  size : Nat
deriving DecidableEq

/-- The validity filter of `get_image`:
`extension.lower() in valid_image_extensions and statInfo.st_size < 4000000`. -/
def validFile (f : ImageFile) : Bool :=
  valid_image_extensions.contains (pyLower (extensionOf f.name)) &&
    decide (f.size < 4000000)

/-- The scan loop of `get_image` (`for x in range(0, len(images))`).
`fuel` is the number of iterations the range still holds (`len - x`); the
caller passes `x = 0` and `fuel = images.length`.  `some y` is the index
the loop ends on — a `break` on a valid file, or the range running out
after a full pass — and `none` models the `GenericError` with code 999
raised when the scan is back at `prevJ` (and, on the out-of-range index
paths unreachable from `get_image`, a lookup failure). -/
def get_image_loop (images : List ImageFile) (prevJ j : Nat) : Nat → Nat → Option Nat
  | _, 0 => none
  | x, fuel + 1 =>
    let y := (x + j) % images.length
    match images.get? y with
    | none => none
    | some imageLink =>
      if validFile imageLink then some y
      else if y = prevJ then none
      else if fuel = 0 then some y
      else get_image_loop images prevJ j (x + 1) fuel

/-- What `get_image` does, seen from the channel: raise code 100, raise
code 999, or return a `[image_link, extension]` pair after persisting a
new `prevJ` for the channel. -/
inductive GetImageResult where
  | noImages
  | noValidImages
  | ok (path extension : String) (newPrevJ : Nat)
deriving DecidableEq

/-- `get_image` from `core.py`, as a function of the candidate list and the
persisted `prevJ` it reads for the channel.  On the `ok` outcome the third
component is the value `str(j)` written back to the `prevJ` field. -/
def get_image (images : List ImageFile) (prevJ : Nat) : GetImageResult :=
  match images with
  | [] => .noImages
  | _ :: _ =>
    let j := (prevJ + 1) % images.length
    match get_image_loop images prevJ j 0 images.length with
    | none => .noValidImages
    | some y =>
      match images.get? y with
      | none => .noValidImages
      | some imageLink => .ok imageLink.name (extensionOf imageLink.name) j

/-! ### The retrying fetcher (`core.py`, `get_files`) -/

/-- `get_files` from `core.py`.  `listdir n` is what `os.listdir` yields on
the attempt made with `retries = n` (`none` models `FileNotFoundError`); an
empty listing raises the same caught `GenericError`.  `fuel` bounds the
recursion depth (`4` covers every run, since `retries` stops at 3).  The
result pairs the returned list of paths with the number of
`download_github` sync invocations performed. -/
def get_files (listdir : Nat → Option (List String)) (directory : String) :
    Nat → Nat → List String × Nat
  | _, 0 => ([], 0)
  | retries, fuel + 1 =>
    let attempt := match listdir retries with
      | some files_dir => if files_dir.length = 0 then none else some files_dir
      | none => none
    match attempt with
    | some files_dir => (files_dir.map (fun path => directory ++ path), 0)
    | none =>
      if retries < 3 then
        let r := get_files listdir directory (retries + 1) fuel
        (r.1, r.2 + 1)
      else ([], 0)

/-! ### The push task (`git_tasks.py`, `_push_helper` and `push`) -/

/-- A database operation the `push` task performs on the key-value store. -/
inductive DBOp where
  | hsetStatus (user : String) (status : List String) (endTime : Nat)
  | deleteSave (user : String)
  | expireStatus (user : String) (seconds : Nat)
deriving DecidableEq

/-- The result-handling tail of `_push_helper`, as a function of the flag
words of the push's result entries: `some none` when there are zero entries
(Python `return None`), `some (some flags)` for a decoded first entry, and
`none` when the decode itself raises `IndexError`. -/
def push_helper_result (pushResultFlags : List Nat) : Option (Option (List String)) :=
  match pushResultFlags with
  | [] => some none
  | w :: _ => (push_flags_decode w).map some

/-- The `push` celery task: the sequence of database operations it performs
for `user_id`, given the flag words of the underlying push's result
entries.  `none` models the task dying in the decode. -/
def push_task (user_id : String) (now : Nat) (pushResultFlags : List Nat) :
    Option (List DBOp) :=
  (push_helper_result pushResultFlags).map (fun result =>
    match result with
    | none =>
      [DBOp.hsetStatus user_id ["FAIL"] now, DBOp.deleteSave user_id,
       DBOp.expireStatus user_id 60]
    | some flags =>
      [DBOp.hsetStatus user_id flags now, DBOp.deleteSave user_id,
       DBOp.expireStatus user_id 60])

/-! ### The progress reporter (`git_tasks.py`, `gen_progress`) -/

/-- An observable side effect of one `wrapped_progress` invocation. -/
inductive ProgressEffect where
  | dbWrite (user : String) (opCode : List String) (curCount maxCount : Nat)
      (message : String)
  | logEvent (user : String) (opCode : List String) (curCount maxCount : Nat)
      (message : String)
deriving DecidableEq

/-- `wrapped_progress` from `gen_progress`: the effects of one invocation.
`randDraw` is the value `random.randint(1, 4)` returns (logging happens on
`1`, or whenever BEGIN or END is active); `none` models the `IndexError`
from an opcode word with a set bit beyond the 9-entry table, which aborts
the call before the write. -/
def wrapped_progress (user_id : String) (op_code cur_count max_count : Nat)
    (message : String) (randDraw : Nat) : Option (List ProgressEffect) :=
  (opcode_decode op_code).map (fun readable_opcode =>
    let data := ProgressEffect.dbWrite user_id readable_opcode cur_count
      max_count message
    if randDraw = 1 ∨ "BEGIN" ∈ readable_opcode ∨ "END" ∈ readable_opcode then
      [data, ProgressEffect.logEvent user_id readable_opcode cur_count
        max_count message]
    else [data])

/-- The database writes among an invocation's effects (an aborted call
writes nothing). -/
def dbWritesOf : Option (List ProgressEffect) → List ProgressEffect
  | none => []
  | some effects => effects.filter (fun e =>
      match e with
      | ProgressEffect.dbWrite _ _ _ _ _ => true
      | ProgressEffect.logEvent _ _ _ _ _ => false)

/-! ### The verification reconciler (`git_tasks.py`, `move_images`) -/

/-- `database.zrangebyscore(key, 3, "+inf")`: the members of a score set
whose score is at least 3. -/
def zrangebyscore3 (zset : List (String × Int)) : List String :=
  (zset.filter (fun p => 3 ≤ p.2)).map Prod.fst

/-- The filesystem effects of one `move_images` pass. -/
structure MoveOutcome where
  removedPaths : List String
  movedIds : List String
  copiedPaths : List String
deriving DecidableEq

/-- The file-mutation portion of the `move_images` celery task, as a
function of the three vote sets and the `filename_lookup` path index.
`delete` unions the invalid and duplicate entries at or above the vote
threshold; every deleted file is removed; each valid identifier not also
in `delete` has its file copied into the image repository and removed
from the verification directory. -/
def move_images (invalid duplicate valid : List (String × Int))
    (lookup : String → String) : MoveOutcome :=
  let delete := zrangebyscore3 invalid ++ zrangebyscore3 duplicate
  let validIds := zrangebyscore3 valid
  let movedIds := validIds.filter (fun image => !(delete.contains image))
  { removedPaths := delete.map lookup ++ movedIds.map lookup
    movedIds := movedIds
    copiedPaths := movedIds.map lookup }

theorem bitsFixed_length (k w : Nat) : (bitsFixed k w).length = k := by
  induction k generalizing w with
  | zero => rfl
  | succ k ih => simp [bitsFixed, ih]

theorem bitsFixed_zero (k : Nat) : bitsFixed k 0 = List.replicate k 0 := by
  induction k with
  | zero => rfl
  | succ k ih => rw [bitsFixed, Nat.zero_div, Nat.zero_mod, ih, List.replicate_succ']

/-- `bitsAux` computes the digits of `bitsFixed`, short of the leading
zeros, whenever the fuel covers the argument. -/
theorem bitsAux_eq_bitsFixed (k : Nat) :
    ∀ fuel w, w ≤ fuel → w < 2 ^ k →
      bitsFixed k w = List.replicate (k - (bitsAux fuel w).length) 0 ++ bitsAux fuel w := by
  induction k with
  | zero =>
    intro fuel w _ hw
    interval_cases w
    cases fuel <;> simp [bitsAux, bitsFixed]
  | succ k ih =>
    intro fuel w hfuel hw
    match fuel, w with
    | fuel, 0 =>
      cases fuel <;>
        simp [bitsAux, bitsFixed_zero, List.replicate_succ']
    | 0, w + 1 => omega
    | fuel + 1, w + 1 =>
      have hu : (w + 1) / 2 ≤ fuel := by omega
      have hu2 : (w + 1) / 2 < 2 ^ k := by
        have h2 : w + 1 < 2 * 2 ^ k := by
          have h3 := hw
          rw [Nat.pow_succ] at h3
          omega
        exact Nat.div_lt_of_lt_mul h2
      have := ih fuel ((w + 1) / 2) hu hu2
      rw [bitsFixed, this, bitsAux, List.append_assoc, List.length_append,
        List.length_singleton, Nat.succ_sub_succ]

/-- The padded rendering the Python format produces agrees with the exact
`k`-digit rendering for every `w < 2 ^ k`. -/
theorem pyPad_pyBin_eq_bitsFixed (k w : Nat) (hk : 0 < k) (hw : w < 2 ^ k) :
    pyPadZero k (pyBin w) = bitsFixed k w := by
  by_cases h0 : w = 0
  · subst h0
    obtain ⟨k, rfl⟩ : ∃ m, k = m + 1 := ⟨k - 1, by omega⟩
    simp [pyBin, pyPadZero, bitsFixed_zero, List.replicate_succ']
  · rw [pyBin, if_neg h0, pyPadZero,
      ← bitsAux_eq_bitsFixed k w w (Nat.le_refl w) hw]

/-- Decoding distributes over appended digit blocks, shifting the table
index by the length of the first block. -/
theorem decodeTableFrom_append (table : List String) (l₁ : List Nat) :
    ∀ i l₂, decodeTableFrom table i (l₁ ++ l₂) =
      (decodeTableFrom table i l₁).bind (fun a =>
        (decodeTableFrom table (i + l₁.length) l₂).map (fun b => a ++ b)) := by
  induction l₁ with
  | nil =>
    intro i l₂
    simp [decodeTableFrom]
  | cons b l₁ ih =>
    intro i l₂
    by_cases hb : b ≠ 0
    · rw [List.cons_append, decodeTableFrom, if_pos hb, decodeTableFrom, if_pos hb]
      cases hg : table.get? i with
      | none => simp
      | some f =>
        rw [ih (i + 1) l₂]
        cases h1 : decodeTableFrom table (i + 1) l₁ with
        | none => simp
        | some a =>
          cases h2 : decodeTableFrom table (i + 1 + l₁.length) l₂ with
          | none =>
            simp only [List.length_cons]
            rw [show i + (l₁.length + 1) = i + 1 + l₁.length by omega, h2]
            simp
          | some c =>
            simp only [List.length_cons, Option.map_some, Option.bind_some,
              Option.map_map]
            rw [show i + (l₁.length + 1) = i + 1 + l₁.length by omega, h2]
            simp
    · rw [List.cons_append, decodeTableFrom, if_neg hb, decodeTableFrom, if_neg hb]
      rw [ih (i + 1) l₂, List.length_cons,
        show i + (l₁.length + 1) = i + 1 + l₁.length by omega]

/-- Decoding the exact `k`-digit rendering of `w < 2 ^ k` against a table
long enough to cover all `k` positions yields exactly the entries at the
set-bit positions, most significant bit first. -/
theorem decodeTableFrom_bitsFixed (table : List String) (k : Nat) :
    ∀ i w, w < 2 ^ k → i + k ≤ table.length →
      decodeTableFrom table i (bitsFixed k w) =
        some ((List.range k).filterMap (fun x =>
          if Nat.testBit w (k - 1 - x) then table.get? (i + x) else none)) := by
  induction k with
  | zero => intro i w _ _; simp [bitsFixed, decodeTableFrom]
  | succ k ih =>
    intro i w hw hlen
    have hu2 : w / 2 < 2 ^ k := by
      have h2 : w < 2 * 2 ^ k := by
        have h3 := hw
        rw [Nat.pow_succ] at h3
        omega
      exact Nat.div_lt_of_lt_mul h2
    rw [bitsFixed, decodeTableFrom_append, bitsFixed_length,
      ih i (w / 2) hu2 (by omega)]
    have hget : ∃ f, table.get? (i + k) = some f := by
      rw [List.get?_eq_get (by omega)]
      exact ⟨_, rfl⟩
    obtain ⟨f, hf⟩ := hget
    have hf' : table[i + k]? = some f := by
      rw [← List.get?_eq_getElem?]
      exact hf
    have hlast : decodeTableFrom table (i + k) [w % 2] =
        some (if w % 2 = 1 then [f] else []) := by
      by_cases hm : w % 2 = 0
      · rw [decodeTableFrom, if_neg (by omega)]
        simp [hm, decodeTableFrom]
      · have hm1 : w % 2 = 1 := by omega
        rw [decodeTableFrom, if_pos (by omega), hf]
        simp [decodeTableFrom, hm1]
    rw [hlast]
    simp only [Option.some_bind, Option.map_some']
    congr 1
    rw [List.range_succ, List.filterMap_append]
    congr 1
    · apply List.filterMap_congr
      intro x hx
      have hxk : x < k := List.mem_range.mp hx
      have : Nat.testBit (w / 2) (k - 1 - x) = Nat.testBit w (k - x) := by
        rw [Nat.testBit_div_two]
        congr 1
        omega
      rw [this]
      rfl
    · simp only [List.filterMap_cons, List.filterMap_nil, Nat.sub_self,
        Nat.testBit_zero]
      by_cases hm : w % 2 = 1
      · simp [hm, hf, hf']
      · simp [hm]


/-! ### Decode correctness and decode domain (claims C5, C10) -/

theorem push_flags_decode_eq (w : Nat) (hw : w < 2 ^ 11) :
    push_flags_decode w = some (specSetFlags w) := by
  rw [push_flags_decode, pyPad_pyBin_eq_bitsFixed 11 w (by norm_num) hw,
    decodeTableFrom_bitsFixed GIT_PUSHINFO_FLAGS 11 0 w hw (by decide)]
  congr 1

theorem opcode_decode_eq (w : Nat) (hw : w < 2 ^ 9) :
    opcode_decode w = some (specSetOpcodes w) := by
  rw [opcode_decode, pyPad_pyBin_eq_bitsFixed 9 w (by norm_num) hw,
    decodeTableFrom_bitsFixed GIT_PUSH_OPCODES 9 0 w hw (by decide)]
  congr 1

theorem specSetFlags_mem_table (w : Nat) (f : String) (hf : f ∈ specSetFlags w) :
    f ∈ GIT_PUSHINFO_FLAGS := by
  unfold specSetFlags at hf
  obtain ⟨i, _, hi⟩ := List.mem_filterMap.mp hf
  by_cases hb : Nat.testBit w (10 - i)
  · rw [if_pos hb] at hi
    exact List.get?_mem hi
  · rw [if_neg hb] at hi
    cases hi

/-- C5: decoding a push-result flag word `w` with `0 ≤ w < 2 ^ 11` against
the 11-symbol table (ERROR down to NEW_TAG, most-significant-bit first)
yields exactly the flag names whose bits are set in `w`; the all-zero word
yields the empty list, which is distinct from the `None` that
`_push_helper` returns when the push has zero result entries. -/
theorem flag_decode_roundtrip (w : Nat) (hw : w < 2 ^ 11) :
    push_flags_decode w = some (specSetFlags w) ∧
    push_flags_decode 0 = some [] ∧
    push_helper_result [] = some none ∧
    some ([] : List String) ≠ none :=
  ⟨push_flags_decode_eq w hw, by decide, rfl, by simp⟩

theorem flag_decode_roundtrip_witness :
    push_flags_decode 1337 = some (specSetFlags 1337) ∧
    push_flags_decode 0 = some [] ∧
    push_helper_result [] = some none ∧
    some ([] : List String) ≠ none :=
  flag_decode_roundtrip 1337 (by norm_num)

/-- C10: the push-flag decode is well-defined for every flag word
`w < 2 ^ 11`, while for some word at or above `2 ^ 11` (here 2049) the
binary rendering exceeds 11 digits and the positional lookup runs past the
end of the 11-entry flag table; the analogous bound `2 ^ 9` holds for the
opcode decode of `gen_progress`, with 513 as an out-of-range word. -/
theorem decode_domain_bounds :
    (∀ w : Nat, w < 2 ^ 11 → (push_flags_decode w).isSome = true) ∧
    (2 ^ 11 ≤ 2049 ∧ push_flags_decode 2049 = none) ∧
    (∀ w : Nat, w < 2 ^ 9 → (opcode_decode w).isSome = true) ∧
    (2 ^ 9 ≤ 513 ∧ opcode_decode 513 = none) := by
  refine ⟨fun w hw => ?_, ⟨by norm_num, by decide⟩,
    fun w hw => ?_, ⟨by norm_num, by decide⟩⟩
  · rw [push_flags_decode_eq w hw]
    rfl
  · rw [opcode_decode_eq w hw]
    rfl

/-! ### The stateful selector: scan-order lemmas (claims C1 to C4) -/

/-- Within a single scan the raise check `y == prevJ` can fire only on the
final iteration of the range: before it, the probed rotation index never
equals `prevJ`. -/
theorem scan_index_ne_prevJ (len prevJ x' : Nat) (hx' : x' + 1 < len) :
    (x' + (prevJ + 1) % len) % len ≠ prevJ := by
  intro h
  rcases Nat.lt_or_ge prevJ len with hp | hp
  · have e1 : x' + (prevJ + 1) % len ≡ x' + (prevJ + 1) [MOD len] :=
      Nat.ModEq.add_left x' (Nat.mod_modEq _ _)
    have e2 : prevJ ≡ x' + (prevJ + 1) [MOD len] := by
      have e2a := (Nat.mod_modEq (x' + (prevJ + 1) % len) len).trans e1
      rwa [h] at e2a
    have e3 : prevJ + (x' + 1) ≡ prevJ + 0 [MOD len] := by
      simpa [show x' + (prevJ + 1) = prevJ + (x' + 1) by omega] using e2.symm
    have e4 : x' + 1 ≡ 0 [MOD len] := Nat.ModEq.add_left_cancel' prevJ e3
    have e5 : len ∣ x' + 1 := Nat.modEq_zero_iff_dvd.mp e4
    have := Nat.le_of_dvd (by omega) e5
    omega
  · have : (x' + (prevJ + 1) % len) % len < len := Nat.mod_lt _ (by omega)
    omega

theorem get?_getD (l : List ImageFile) (n : Nat) (h : n < l.length) :
    l.get? n = some (l.getD n ⟨"", 0⟩) := by
  rw [List.getD_eq_get?, List.get?_eq_get h]
  rfl

/-- If the file at scan offset `x₀` is valid and every earlier offset in
the scan holds an invalid file, the loop stops exactly at `x₀`'s rotation
index. -/
theorem get_image_loop_finds (images : List ImageFile) (prevJ x₀ : Nat)
    (hx₀ : x₀ < images.length)
    (hv₀ : validFile (images.getD
      ((x₀ + (prevJ + 1) % images.length) % images.length) ⟨"", 0⟩) = true) :
    ∀ fuel x, x + fuel = images.length → x ≤ x₀ →
      (∀ x', x ≤ x' → x' < x₀ →
        validFile (images.getD
          ((x' + (prevJ + 1) % images.length) % images.length) ⟨"", 0⟩) = false) →
      get_image_loop images prevJ ((prevJ + 1) % images.length) x fuel =
        some ((x₀ + (prevJ + 1) % images.length) % images.length) := by
  intro fuel
  induction fuel with
  | zero => intro x hlen hx _; omega
  | succ fuel ih =>
    intro x hlen hx hbef
    have hlen0 : 0 < images.length := by omega
    have hy : (x + (prevJ + 1) % images.length) % images.length < images.length :=
      Nat.mod_lt _ hlen0
    rcases Nat.eq_or_lt_of_le hx with heq | hlt
    · subst heq
      rw [get_image_loop]
      simp only [get?_getD images _ hy, hv₀, if_true]
    · rw [get_image_loop]
      simp only [get?_getD images _ hy, hbef x (Nat.le_refl x) hlt,
        Bool.false_eq_true, if_false]
      rw [if_neg (scan_index_ne_prevJ images.length prevJ x (by omega)),
        if_neg (show ¬ fuel = 0 by omega)]
      exact ih (x + 1) (by omega) (by omega) (fun x' h1 h2 => hbef x' (by omega) h2)

/-- Core selection lemma: with at least one passing candidate, `get_image`
returns the first candidate passing the filter in rotation order starting
at `j = (prevJ + 1) mod len`, and persists the start index `j`. -/
theorem get_image_selects_first_valid (images : List ImageFile) (prevJ x₀ : Nat)
    (hx₀ : x₀ < images.length)
    (hv₀ : validFile (images.getD
      ((x₀ + (prevJ + 1) % images.length) % images.length) ⟨"", 0⟩) = true)
    (hbefore : ∀ x', x' < x₀ →
      validFile (images.getD
        ((x' + (prevJ + 1) % images.length) % images.length) ⟨"", 0⟩) = false) :
    get_image images prevJ =
      .ok (images.getD
          ((x₀ + (prevJ + 1) % images.length) % images.length) ⟨"", 0⟩).name
        (extensionOf (images.getD
          ((x₀ + (prevJ + 1) % images.length) % images.length) ⟨"", 0⟩).name)
        ((prevJ + 1) % images.length) := by
  have hlen0 : 0 < images.length := by omega
  have hloop := get_image_loop_finds images prevJ x₀ hx₀ hv₀ images.length 0
    (by omega) (Nat.zero_le x₀) (fun x' _ h2 => hbefore x' h2)
  have hy : (x₀ + (prevJ + 1) % images.length) % images.length < images.length :=
    Nat.mod_lt _ hlen0
  match images, hlen0 with
  | a :: as, _ =>
    rw [get_image]
    simp only [hloop, get?_getD (a :: as) _ hy]

/-- C2 (amended): with at least one passing candidate, `get_image` returns
the first candidate passing the extension and size filter in rotation
order starting at `j = (prevJ + 1) mod len`, and persists the start index
`j` itself — not the selected candidate's rotation index — as the new
`prevJ` for the channel. -/
theorem get_image_first_valid (images : List ImageFile) (prevJ x₀ : Nat)
    (hx₀ : x₀ < images.length)
    (hv₀ : validFile (images.getD
      ((x₀ + (prevJ + 1) % images.length) % images.length) ⟨"", 0⟩) = true)
    (hbefore : ∀ x', x' < x₀ →
      validFile (images.getD
        ((x' + (prevJ + 1) % images.length) % images.length) ⟨"", 0⟩) = false) :
    get_image images prevJ =
      .ok (images.getD
          ((x₀ + (prevJ + 1) % images.length) % images.length) ⟨"", 0⟩).name
        (extensionOf (images.getD
          ((x₀ + (prevJ + 1) % images.length) % images.length) ⟨"", 0⟩).name)
        ((prevJ + 1) % images.length) :=
  get_image_selects_first_valid images prevJ x₀ hx₀ hv₀ hbefore

theorem get_image_first_valid_witness :
    get_image [⟨"a.txt", 10⟩, ⟨"b.jpg", 10⟩] 1 = .ok "b.jpg" "jpg" 0 :=
  get_image_first_valid [⟨"a.txt", 10⟩, ⟨"b.jpg", 10⟩] 1 1 (by decide) (by decide)
    (by decide)

/-- C2's counterexample to the claim as stated: with `prevJ = 1` over
`[a.txt, b.jpg]`, the selected candidate is `b.jpg` at rotation index 1,
yet the persisted `prevJ` is the start index 0. -/
theorem get_image_persists_start_cex :
    get_image [⟨"a.txt", 10⟩, ⟨"b.jpg", 10⟩] 1 = .ok "b.jpg" "jpg" 0 ∧
    ([⟨"a.txt", 10⟩, ⟨"b.jpg", 10⟩] : List ImageFile).get? 1 = some ⟨"b.jpg", 10⟩ ∧
    validFile ⟨"b.jpg", 10⟩ = true ∧ validFile ⟨"a.txt", 10⟩ = false ∧
    (0 : Nat) ≠ 1 := by decide

theorem exists_valid_index (l : List ImageFile)
    (h : 1 ≤ l.countP (fun f => validFile f)) :
    ∃ i, i < l.length ∧ validFile (l.getD i ⟨"", 0⟩) = true := by
  induction l with
  | nil => simp at h
  | cons f t ih =>
    rw [List.countP_cons] at h
    by_cases hf : validFile f = true
    · exact ⟨0, by simp, by simpa using hf⟩
    · have h1 : 1 ≤ t.countP (fun f => validFile f) := by simpa [hf] using h
      obtain ⟨i, hi, hv⟩ := ih h1
      refine ⟨i + 1, by simpa using hi, ?_⟩
      simpa using hv

theorem exists_two_valid_indices (l : List ImageFile)
    (h : 2 ≤ l.countP (fun f => validFile f)) :
    ∃ i k, i < k ∧ k < l.length ∧ validFile (l.getD i ⟨"", 0⟩) = true ∧
      validFile (l.getD k ⟨"", 0⟩) = true := by
  induction l with
  | nil => simp at h
  | cons f t ih =>
    rw [List.countP_cons] at h
    by_cases hf : validFile f = true
    · have h1 : 1 ≤ t.countP (fun f => validFile f) := by
        rw [if_pos hf] at h
        omega
      obtain ⟨i, hi, hv⟩ := exists_valid_index t h1
      exact ⟨0, i + 1, by omega, by simpa using hi, by simpa using hf,
        by simpa using hv⟩
    · have h2 : 2 ≤ t.countP (fun f => validFile f) := by simpa [hf] using h
      obtain ⟨i, k, hik, hk, hvi, hvk⟩ := ih h2
      exact ⟨i + 1, k + 1, by omega, by simpa using hk, by simpa using hvi,
        by simpa using hvk⟩

/-- C1 (amended): when at least two candidates pass the validity filter
and the candidate at the first call's start index
`j = (prevJ + 1) mod len` itself passes the filter, two consecutive calls
of `get_image` on the same channel state select different rotation
indices — the same candidate is never returned twice in a row — and the
two persisted `prevJ` values differ.  The condition on the first call's
start candidate is what the counterexample forces: there the start
candidate is invalid, `get_image` persists the start index rather than
the selected index, and the second call returns the same candidate
again. -/
theorem get_image_consecutive_distinct (images : List ImageFile) (prevJ : Nat)
    (htwo : 2 ≤ images.countP (fun f => validFile f))
    (hv1 : validFile (images.getD ((prevJ + 1) % images.length) ⟨"", 0⟩) = true) :
    get_image images prevJ =
      .ok (images.getD ((prevJ + 1) % images.length) ⟨"", 0⟩).name
        (extensionOf (images.getD ((prevJ + 1) % images.length) ⟨"", 0⟩).name)
        ((prevJ + 1) % images.length) ∧
    (prevJ + 1) % images.length ≠
      ((prevJ + 1) % images.length + 1) % images.length ∧
    ∃ y2, y2 < images.length ∧ y2 ≠ (prevJ + 1) % images.length ∧
      validFile (images.getD y2 ⟨"", 0⟩) = true ∧
      get_image images ((prevJ + 1) % images.length) =
        .ok (images.getD y2 ⟨"", 0⟩).name
          (extensionOf (images.getD y2 ⟨"", 0⟩).name)
          (((prevJ + 1) % images.length + 1) % images.length) := by
  have hlen2 : 2 ≤ images.length := le_trans htwo (List.countP_le_length _)
  have hlen0 : 0 < images.length := by omega
  have hj1 : (prevJ + 1) % images.length < images.length := Nat.mod_lt _ hlen0
  have hj2 : ((prevJ + 1) % images.length + 1) % images.length < images.length :=
    Nat.mod_lt _ hlen0
  have hidx1 : (0 + (prevJ + 1) % images.length) % images.length =
      (prevJ + 1) % images.length := by
    rw [Nat.zero_add, Nat.mod_eq_of_lt hj1]
  have hc1 := get_image_selects_first_valid images prevJ 0 hlen0
    (by rw [hidx1]; exact hv1) (fun x' hx' => absurd hx' (Nat.not_lt_zero x'))
  rw [hidx1] at hc1
  have hj2char : ((prevJ + 1) % images.length + 1) % images.length =
      (prevJ + 1) % images.length + 1 ∨
      ((prevJ + 1) % images.length + 1 = images.length ∧
        ((prevJ + 1) % images.length + 1) % images.length = 0) := by
    rcases Nat.lt_or_ge ((prevJ + 1) % images.length + 1) images.length with hlt | hge
    · exact Or.inl (Nat.mod_eq_of_lt hlt)
    · have he : (prevJ + 1) % images.length + 1 = images.length := by omega
      exact Or.inr ⟨he, by rw [he, Nat.mod_self]⟩
  have hne : (prevJ + 1) % images.length ≠
      ((prevJ + 1) % images.length + 1) % images.length := by
    rcases hj2char with h | ⟨h1, h2⟩ <;> omega
  obtain ⟨i, k, hik, hk, hvi, hvk⟩ := exists_two_valid_indices images htwo
  obtain ⟨v, hvlen, hvne, hvv⟩ :
      ∃ v, v < images.length ∧ v ≠ (prevJ + 1) % images.length ∧
        validFile (images.getD v ⟨"", 0⟩) = true := by
    by_cases hcase : i = (prevJ + 1) % images.length
    · exact ⟨k, hk, by omega, hvk⟩
    · exact ⟨i, by omega, hcase, hvi⟩
  obtain ⟨xv, hxv1, hxv2⟩ :
      ∃ xv, xv + 1 < images.length ∧
        (xv + ((prevJ + 1) % images.length + 1) % images.length) %
          images.length = v := by
    by_cases hcmp : ((prevJ + 1) % images.length + 1) % images.length ≤ v
    · refine ⟨v - ((prevJ + 1) % images.length + 1) % images.length, ?_, ?_⟩
      · rcases hj2char with h | ⟨h1, h2⟩ <;> omega
      · rw [Nat.sub_add_cancel hcmp]
        exact Nat.mod_eq_of_lt hvlen
    · refine ⟨v + images.length -
          ((prevJ + 1) % images.length + 1) % images.length, ?_, ?_⟩
      · rcases hj2char with h | ⟨h1, h2⟩ <;> omega
      · rw [show v + images.length -
              ((prevJ + 1) % images.length + 1) % images.length +
              ((prevJ + 1) % images.length + 1) % images.length =
              v + images.length by omega,
          Nat.add_mod_right]
        exact Nat.mod_eq_of_lt hvlen
  have hP : ∃ x, validFile (images.getD
      ((x + ((prevJ + 1) % images.length + 1) % images.length) % images.length)
      ⟨"", 0⟩) = true := ⟨xv, by rw [hxv2]; exact hvv⟩
  have hspec := Nat.find_spec hP
  have hle : Nat.find hP ≤ xv := Nat.find_min' hP (by rw [hxv2]; exact hvv)
  have hfind1 : Nat.find hP + 1 < images.length := by omega
  have hc2 := get_image_selects_first_valid images ((prevJ + 1) % images.length)
    (Nat.find hP) (by omega) hspec
    (fun x' hx' => by simpa using Nat.find_min hP hx')
  exact ⟨hc1, hne,
    (Nat.find hP + ((prevJ + 1) % images.length + 1) % images.length) %
      images.length,
    Nat.mod_lt _ hlen0,
    scan_index_ne_prevJ images.length ((prevJ + 1) % images.length)
      (Nat.find hP) hfind1,
    hspec, hc2⟩

theorem get_image_consecutive_distinct_witness :
    get_image [⟨"a.jpg", 10⟩, ⟨"b.png", 10⟩] 0 = .ok "b.png" "png" 1 ∧
    (1 : Nat) ≠ 0 ∧
    (∃ y2, y2 < ([⟨"a.jpg", 10⟩, ⟨"b.png", 10⟩] : List ImageFile).length ∧
      y2 ≠ 1 ∧
      validFile (([⟨"a.jpg", 10⟩, ⟨"b.png", 10⟩] : List ImageFile).getD y2
        ⟨"", 0⟩) = true ∧
      get_image [⟨"a.jpg", 10⟩, ⟨"b.png", 10⟩] 1 =
        .ok ((([⟨"a.jpg", 10⟩, ⟨"b.png", 10⟩] : List ImageFile).getD y2
            ⟨"", 0⟩).name)
          (extensionOf ((([⟨"a.jpg", 10⟩, ⟨"b.png", 10⟩] : List ImageFile).getD y2
            ⟨"", 0⟩).name))
          0) :=
  get_image_consecutive_distinct [⟨"a.jpg", 10⟩, ⟨"b.png", 10⟩] 0
    (by decide) (by decide)

/-- C1's counterexample to the claim as stated: over
`[a.txt, b.jpg, c.png]` (two candidates pass the filter) with persisted
`prevJ = 2`, the first call selects `b.jpg` and persists the start index
0; the second call, reading 0, starts at 1 and selects `b.jpg` again —
the same candidate twice in a row. -/
theorem get_image_repeat_cex :
    get_image [⟨"a.txt", 10⟩, ⟨"b.jpg", 10⟩, ⟨"c.png", 10⟩] 2 =
      .ok "b.jpg" "jpg" 0 ∧
    get_image [⟨"a.txt", 10⟩, ⟨"b.jpg", 10⟩, ⟨"c.png", 10⟩] 0 =
      .ok "b.jpg" "jpg" 1 ∧
    ([⟨"a.txt", 10⟩, ⟨"b.jpg", 10⟩, ⟨"c.png", 10⟩] : List ImageFile).countP
      (fun f => validFile f) = 2 := by decide

/-- C3: at the initialization sentinel `prevJ = 20` with a candidate list
shorter than 21 entries, a full pass over an all-invalid list falls out of
the scan loop without raising, and `get_image` returns a candidate that
fails the validity filter — `a.txt` here — contradicting the selector's
documented guarantee of delivering only valid files. -/
theorem get_image_returns_invalid_at_sentinel :
    get_image [⟨"a.txt", 10⟩] 20 = .ok "a.txt" "txt" 0 ∧
    validFile ⟨"a.txt", 10⟩ = false := by decide

/-- C4: with the sentinel `prevJ = 20` and a two-candidate list in which
every entry fails the validity filter, `get_image` does not raise the
code-999 error: the `y == prevJ` early-raise check never fires because no
probed index equals 20, so the loop completes and an invalid file is
returned.  With an in-range `prevJ` the same list does raise. -/
theorem get_image_sentinel_no_error :
    get_image [⟨"a.txt", 10⟩, ⟨"b.txt", 10⟩] 20 = .ok "a.txt" "txt" 1 ∧
    (([⟨"a.txt", 10⟩, ⟨"b.txt", 10⟩] : List ImageFile).all
      (fun f => !validFile f)) = true ∧
    get_image [⟨"a.txt", 10⟩, ⟨"b.txt", 10⟩] 20 ≠ .noValidImages ∧
    get_image [⟨"a.txt", 10⟩, ⟨"b.txt", 10⟩] 1 = .noValidImages := by decide

/-! ### The verification reconciler (claim C6) -/

/-- C6: an image identifier at or above the vote threshold in both the
valid set and the delete set (the union of invalid and duplicate) has its
file removed and is skipped by the image-repository move: delete wins, and
the copies are exactly the moved identifiers' files. -/
theorem move_images_delete_wins (invalid duplicate valid : List (String × Int))
    (lookup : String → String) (img : String) (s t : Int)
    (hdel : (img, s) ∈ invalid ∨ (img, s) ∈ duplicate) (hs : 3 ≤ s)
    (hval : (img, t) ∈ valid) (ht : 3 ≤ t) :
    lookup img ∈ (move_images invalid duplicate valid lookup).removedPaths ∧
    img ∉ (move_images invalid duplicate valid lookup).movedIds ∧
    (move_images invalid duplicate valid lookup).copiedPaths =
      ((move_images invalid duplicate valid lookup).movedIds).map lookup := by
  have himgdel : img ∈ zrangebyscore3 invalid ++ zrangebyscore3 duplicate := by
    rcases hdel with h | h
    · exact List.mem_append_left _ (List.mem_map.mpr
        ⟨(img, s), List.mem_filter.mpr ⟨h, by simpa using hs⟩, rfl⟩)
    · exact List.mem_append_right _ (List.mem_map.mpr
        ⟨(img, s), List.mem_filter.mpr ⟨h, by simpa using hs⟩, rfl⟩)
  refine ⟨?_, ?_, rfl⟩
  · exact List.mem_append_left _ (List.mem_map.mpr ⟨img, himgdel, rfl⟩)
  · intro hmoved
    have hfil := List.mem_filter.mp hmoved
    have : (zrangebyscore3 invalid ++ zrangebyscore3 duplicate).contains img = false := by
      simpa using hfil.2
    rw [List.contains, List.elem_eq_mem, decide_eq_false_iff_not] at this
    exact this himgdel

theorem move_images_delete_wins_witness :
    ("a.jpg" : String) ∈
      (move_images [("a.jpg", 3)] [] [("a.jpg", 3)] (fun p => p)).removedPaths ∧
    "a.jpg" ∉ (move_images [("a.jpg", 3)] [] [("a.jpg", 3)] (fun p => p)).movedIds ∧
    (move_images [("a.jpg", 3)] [] [("a.jpg", 3)] (fun p => p)).copiedPaths =
      ((move_images [("a.jpg", 3)] [] [("a.jpg", 3)] (fun p => p)).movedIds).map
        (fun p => p) :=
  move_images_delete_wins [("a.jpg", 3)] [] [("a.jpg", 3)] (fun p => p) "a.jpg" 3 3
    (Or.inl (by decide)) (by decide) (by decide) (by decide)

/-! ### The retrying fetcher (claim C7) -/

/-- C7: when every listing attempt fails — missing directory and empty
directory are folded into the same condition — `get_files` invoked with
`retries = 0` performs exactly three repository-sync invocations and then
returns the empty list, raising no error. -/
theorem get_files_exhausts_retries (listdir : Nat → Option (List String))
    (directory : String)
    (hfail : ∀ n, listdir n = none ∨ listdir n = some []) :
    get_files listdir directory 0 4 = ([], 3) := by
  have hstep : ∀ r, (match listdir r with
      | some files_dir => if files_dir.length = 0 then none else some files_dir
      | none => none) = (none : Option (List String)) := by
    intro r
    rcases hfail r with h | h <;> rw [h] <;> rfl
  simp only [get_files, hstep]
  norm_num

theorem get_files_exhausts_retries_witness :
    get_files (fun _ => none) "github_download/c/i/" 0 4 = ([], 3) :=
  get_files_exhausts_retries (fun _ => none) "github_download/c/i/"
    (fun _ => Or.inl rfl)

/-! ### The push task (claim C8) -/

/-- C8: the push task records `["FAIL"]` in the user's status record
exactly when the underlying push yields zero result entries, records the
decoded flag list otherwise, and in both cases deletes the user's save key
and puts a 60-second expiry on the status record. -/
theorem push_task_effects (user_id : String) (now : Nat) (entries : List Nat)
    (hw : ∀ w, entries.head? = some w → w < 2 ^ 11) :
    ∃ ops, push_task user_id now entries = some ops ∧
      DBOp.deleteSave user_id ∈ ops ∧
      DBOp.expireStatus user_id 60 ∈ ops ∧
      ((DBOp.hsetStatus user_id ["FAIL"] now ∈ ops) ↔ entries = []) ∧
      (∀ w rest, entries = w :: rest →
        DBOp.hsetStatus user_id (specSetFlags w) now ∈ ops) := by
  cases entries with
  | nil =>
    refine ⟨_, rfl, by simp, by simp, by simp, ?_⟩
    intro w rest h
    cases h
  | cons w rest =>
    have hw' : w < 2 ^ 11 := hw w rfl
    have hdec := push_flags_decode_eq w hw'
    refine ⟨[DBOp.hsetStatus user_id (specSetFlags w) now, DBOp.deleteSave user_id,
      DBOp.expireStatus user_id 60], ?_, by simp, by simp, ?_, ?_⟩
    · simp [push_task, push_helper_result, hdec]
    · constructor
      · intro hmem
        exfalso
        simp only [List.mem_cons, List.not_mem_nil, or_false] at hmem
        rcases hmem with h | h | h
        · have hflags : ("FAIL" : String) ∈ specSetFlags w := by
            have := (DBOp.hsetStatus.injEq _ _ _ _ _ _).mp h
            rw [← this.2.1]
            simp
          have := specSetFlags_mem_table w "FAIL" hflags
          revert this
          decide
        · cases h
        · cases h
      · intro h
        cases h
    · intro w' rest' h
      cases h
      simp

/-! ### The progress reporter (claim C9) -/

/-- C9: the database write `wrapped_progress` performs does not depend on
the 25 percent logging draw — the persisted status contents are identical
for any two draw outcomes — and for every in-range opcode word the write
carries the decoded opcode set together with the counters and message. -/
theorem wrapped_progress_write_independent (user_id : String)
    (op_code cur_count max_count : Nat) (message : String) (r1 r2 : Nat) :
    dbWritesOf (wrapped_progress user_id op_code cur_count max_count message r1) =
      dbWritesOf (wrapped_progress user_id op_code cur_count max_count message r2) ∧
    (op_code < 2 ^ 9 →
      ∀ r, ∃ effects,
        wrapped_progress user_id op_code cur_count max_count message r =
          some effects ∧
        ProgressEffect.dbWrite user_id (specSetOpcodes op_code) cur_count max_count
          message ∈ effects) := by
  constructor
  · cases hdec : opcode_decode op_code with
    | none => simp [wrapped_progress, hdec, dbWritesOf]
    | some readable =>
      simp only [wrapped_progress, hdec, Option.map_some']
      by_cases ha : r1 = 1 ∨ "BEGIN" ∈ readable ∨ "END" ∈ readable <;>
        by_cases hb : r2 = 1 ∨ "BEGIN" ∈ readable ∨ "END" ∈ readable <;>
          simp [ha, hb, dbWritesOf]
  · intro hop r
    have hdec := opcode_decode_eq op_code hop
    refine ⟨if r = 1 ∨ "BEGIN" ∈ specSetOpcodes op_code ∨
        "END" ∈ specSetOpcodes op_code then
        [ProgressEffect.dbWrite user_id (specSetOpcodes op_code) cur_count
          max_count message,
         ProgressEffect.logEvent user_id (specSetOpcodes op_code) cur_count
          max_count message]
      else
        [ProgressEffect.dbWrite user_id (specSetOpcodes op_code) cur_count
          max_count message], ?_, ?_⟩
    · simp [wrapped_progress, hdec]
    · by_cases h : r = 1 ∨ "BEGIN" ∈ specSetOpcodes op_code ∨
        "END" ∈ specSetOpcodes op_code <;> simp [h]

theorem push_task_effects_witness :
    ∃ ops, push_task "u" 0 [3] = some ops ∧
      DBOp.deleteSave "u" ∈ ops ∧
      DBOp.expireStatus "u" 60 ∈ ops ∧
      ((DBOp.hsetStatus "u" ["FAIL"] 0 ∈ ops) ↔ ([3] : List Nat) = []) ∧
      (∀ w rest, ([3] : List Nat) = w :: rest →
        DBOp.hsetStatus "u" (specSetFlags w) 0 ∈ ops) :=
  push_task_effects "u" 0 [3] (by intro w h; cases h; decide)

end SciolyId
